import Mathlib

/-!
# Verification of the minikeystore storage engine

A shallow embedding of `internal/storage/storage.go` (package `storage`) of
the `minikeystore` repository, together with proofs of the specified
properties of the storage engine.

Modelling conventions:
* Go strings are Lean `String`s; byte-wise comparison of UTF-8 encoded Go
  strings coincides with the codepoint-lexicographic order on `String`
  (UTF-8 preserves lexicographic order), so Go `<` on strings is Lean `<`.
* The Go map `map[string]*Item` is modelled as an association list with
  unique keys; Go map indexing/assignment/`delete` become `lookupKey`,
  `assocSet` and `eraseKey`.  Pointer mutation of an `*Item` followed by
  (or without) re-assignment into the map is modelled as a functional
  update of the entry.
* A nilable Go slice / map field is an `Option`: `none` is Go `nil`,
  `some` a non-nil (possibly empty) slice/map.
* Functions returning `error` become `Except String` carrying the exact
  `fmt.Errorf` message; a Go runtime panic (out-of-range indexing) is
  modelled by `Option.none` in the result of `GetIndex`.
* `sort.StringSlice.Search` (Go standard library) is modelled by its
  documented contract: the smallest index `i` with `a[i] >= key`
  (`= len a` when there is none), computed here as the first such
  position from the left, which agrees with binary search on the sorted
  slices the engine maintains.
-/

namespace MiniKeystore

/-- Go map indexing `m[key]`: the value stored for `key`, if any. -/
def lookupKey {β : Type} : List (String × β) → String → Option β
  | [], _ => none
  | (k', v) :: rest, k => if k' = k then some v else lookupKey rest k

/-- Go map assignment `m[key] = v`: overwrite the entry if present,
otherwise add it. -/
def assocSet {β : Type} : List (String × β) → String → β → List (String × β)
  | [], k, v => [(k, v)]
  | (k', v') :: rest, k, v =>
    if k' = k then (k, v) :: rest else (k', v') :: assocSet rest k v

/-- Go `delete(m, key)`: remove the entry for `key`. -/
def eraseKey {β : Type} : List (String × β) → String → List (String × β)
  | [], _ => []
  | (k', v') :: rest, k =>
    if k' = k then eraseKey rest k else (k', v') :: eraseKey rest k

@[simp] theorem lookupKey_nil {β : Type} (k : String) :
    lookupKey ([] : List (String × β)) k = none := rfl

@[simp] theorem lookupKey_cons {β : Type} (k' : String) (v : β) (rest : List (String × β))
    (k : String) :
    lookupKey ((k', v) :: rest) k = if k' = k then some v else lookupKey rest k := rfl

@[simp] theorem lookupKey_assocSet {β : Type} (l : List (String × β)) (k : String) (v : β)
    (a : String) :
    lookupKey (assocSet l k v) a = if a = k then some v else lookupKey l a := by
  induction l with
  | nil =>
    by_cases h : a = k
    · simp [assocSet, h]
    · simp [assocSet, h, Ne.symm h]
  | cons p rest ih =>
    obtain ⟨k', v'⟩ := p
    by_cases hk : k' = k
    · subst hk
      by_cases ha : a = k'
      · simp [assocSet, ha]
      · simp [assocSet, ha, Ne.symm ha]
    · by_cases ha : k' = a
      · subst ha
        simp [assocSet, hk, Ne.symm hk]
      · simp [assocSet, hk, ha, ih]

@[simp] theorem lookupKey_eraseKey {β : Type} (l : List (String × β)) (k : String)
    (a : String) :
    lookupKey (eraseKey l k) a = if a = k then none else lookupKey l a := by
  induction l with
  | nil => simp [eraseKey]
  | cons p rest ih =>
    obtain ⟨k', v'⟩ := p
    by_cases hk : k' = k
    · subst hk
      by_cases ha : a = k'
      · subst ha
        simp only [eraseKey, if_pos rfl]
        simpa using ih
      · simp [eraseKey, ha, Ne.symm ha, ih]
    · by_cases ha : k' = a
      · subst ha
        simp [eraseKey, hk, Ne.symm hk, ih]
      · simp [eraseKey, hk, ha, ih]

/-- `sort.StringSlice.Search key`: smallest index whose element is `≥ key`
(the slice length when every element is `< key`). -/
def lowerBound : List String → String → Nat
  | [], _ => 0
  | x :: xs, key => if x < key then lowerBound xs key + 1 else 0

theorem lowerBound_le_length (l : List String) (key : String) :
    lowerBound l key ≤ l.length := by
  induction l with
  | nil => simp [lowerBound]
  | cons x xs ih =>
    by_cases h : x < key <;> simp [lowerBound, h, Nat.succ_le_succ ih]

/-- `Storage.updateIndex` from the source: binary-search for the key's
sorted position, then insert (`add = true`) or remove (`add = false`) the
key at that position, skipping the operation when the position shows the
key is already present / absent. -/
def updateIndex (idx : List String) (key : String) (add : Bool) : List String :=
  if add then
    let i := lowerBound idx key
    if i = idx.length then idx ++ [key]
    else if idx.getD i "" = key then idx
    else idx.take i ++ key :: idx.drop i
  else
    let i := lowerBound idx key
    if i = idx.length then idx
    else if ¬ (idx.getD i "" = key) then idx
    else idx.take i ++ idx.drop (i + 1)

@[simp] theorem updateIndex_nil_add (key : String) :
    updateIndex [] key true = [key] := rfl

@[simp] theorem updateIndex_nil_remove (key : String) :
    updateIndex [] key false = [] := rfl

theorem updateIndex_cons_add (x : String) (xs : List String) (key : String) :
    updateIndex (x :: xs) key true =
      if x < key then x :: updateIndex xs key true
      else if x = key then x :: xs
      else key :: x :: xs := by
  by_cases hx : x < key
  · simp only [updateIndex, lowerBound, hx, if_true]
    by_cases hlen : lowerBound xs key = xs.length
    · simp [hlen]
    · have hlt : lowerBound xs key < xs.length :=
        lt_of_le_of_ne (lowerBound_le_length xs key) hlen
      simp only [List.length_cons, Nat.succ_eq_add_one, Nat.add_right_cancel_iff, hlen,
        if_false]
      have hget : (x :: xs).getD (lowerBound xs key + 1) "" = xs.getD (lowerBound xs key) "" := by
        simp [List.getD]
      rw [hget]
      simp only [List.getD] at *
      by_cases hk : xs[lowerBound xs key]?.getD "" = key
      · simp [hk]
      · simp [hk, List.take_succ_cons, List.drop_succ_cons]
  · simp only [updateIndex, lowerBound, hx, if_false]
    have h0 : (0 : Nat) ≠ (x :: xs).length := by simp
    simp only [h0, if_false]
    by_cases hk : x = key
    · simp [hk]
    · simp [List.getD, hk, hx]

theorem updateIndex_cons_remove (x : String) (xs : List String) (key : String) :
    updateIndex (x :: xs) key false =
      if x < key then x :: updateIndex xs key false
      else if x = key then xs
      else x :: xs := by
  by_cases hx : x < key
  · simp only [updateIndex, lowerBound, hx, if_true]
    by_cases hlen : lowerBound xs key = xs.length
    · simp [hlen]
    · have hlt : lowerBound xs key < xs.length :=
        lt_of_le_of_ne (lowerBound_le_length xs key) hlen
      simp only [List.length_cons, Nat.succ_eq_add_one, Nat.add_right_cancel_iff, hlen,
        if_false]
      have hget : (x :: xs).getD (lowerBound xs key + 1) "" = xs.getD (lowerBound xs key) "" := by
        simp [List.getD]
      rw [hget]
      simp only [List.getD] at *
      by_cases hk : xs[lowerBound xs key]?.getD "" = key
      · simp [hk, List.take_succ_cons, List.drop_succ_cons]
      · simp [hk]
  · simp only [updateIndex, lowerBound, hx, if_false]
    have h0 : (0 : Nat) ≠ (x :: xs).length := by simp
    simp only [h0, if_false]
    by_cases hk : x = key
    · simp [List.getD, hk]
    · simp [List.getD, hk, hx]

theorem mem_updateIndex_add (idx : List String) (key a : String) :
    a ∈ updateIndex idx key true ↔ a ∈ idx ∨ a = key := by
  induction idx with
  | nil => simp
  | cons x xs ih =>
    rw [updateIndex_cons_add]
    by_cases hx : x < key
    · simp only [hx, if_true, List.mem_cons, ih]
      tauto
    · by_cases hk : x = key
      · subst hk
        simp only [hx, if_false, eq_self_iff_true, if_true, List.mem_cons]
        tauto
      · simp only [hx, if_false, hk, if_false, List.mem_cons]
        tauto

theorem sorted_updateIndex_add (idx : List String) (key : String)
    (h : idx.Sorted (· < ·)) : (updateIndex idx key true).Sorted (· < ·) := by
  induction idx with
  | nil => simp
  | cons x xs ih =>
    rw [List.sorted_cons] at h
    obtain ⟨hx_lt, hxs⟩ := h
    rw [updateIndex_cons_add]
    by_cases hx : x < key
    · simp only [hx, if_true, List.sorted_cons]
      refine ⟨?_, ih hxs⟩
      intro b hb
      rcases (mem_updateIndex_add xs key b).1 hb with hb' | hb'
      · exact hx_lt b hb'
      · exact hb' ▸ hx
    · by_cases hk : x = key
      · subst hk
        simp only [hx, if_false, eq_self_iff_true, if_true, List.sorted_cons]
        exact ⟨hx_lt, hxs⟩
      · have hkx : key < x := by
          rcases lt_trichotomy x key with h' | h' | h'
          · exact absurd h' hx
          · exact absurd h' hk
          · exact h'
        simp only [hx, if_false, hk, if_false, List.sorted_cons, List.mem_cons]
        refine ⟨?_, ?_, hxs⟩
        · rintro b (rfl | hb)
          · exact hkx
          · exact lt_trans hkx (hx_lt b hb)
        · exact hx_lt

theorem updateIndex_remove_sublist (idx : List String) (key : String) :
    (updateIndex idx key false).Sublist idx := by
  induction idx with
  | nil => simp
  | cons x xs ih =>
    rw [updateIndex_cons_remove]
    by_cases hx : x < key
    · simpa [hx] using ih.cons₂ x
    · by_cases hk : x = key
      · subst hk
        simp only [hx, if_false, eq_self_iff_true, if_true]
        exact List.sublist_cons_self x xs
      · simp [hx, hk]

theorem sorted_updateIndex_remove (idx : List String) (key : String)
    (h : idx.Sorted (· < ·)) : (updateIndex idx key false).Sorted (· < ·) :=
  h.sublist (updateIndex_remove_sublist idx key)

theorem mem_updateIndex_remove (idx : List String) (key a : String)
    (h : idx.Sorted (· < ·)) :
    a ∈ updateIndex idx key false ↔ a ∈ idx ∧ a ≠ key := by
  induction idx with
  | nil => simp
  | cons x xs ih =>
    rw [List.sorted_cons] at h
    obtain ⟨hx_lt, hxs⟩ := h
    rw [updateIndex_cons_remove]
    by_cases hx : x < key
    · have hxk : x ≠ key := ne_of_lt hx
      simp only [hx, if_true, List.mem_cons, ih hxs]
      constructor
      · rintro (rfl | ⟨hb, hbk⟩)
        · exact ⟨Or.inl rfl, hxk⟩
        · exact ⟨Or.inr hb, hbk⟩
      · rintro ⟨rfl | hb, hbk⟩
        · exact Or.inl rfl
        · exact Or.inr ⟨hb, hbk⟩
    · by_cases hk : x = key
      · subst hk
        simp only [hx, if_false, eq_self_iff_true, if_true, List.mem_cons]
        constructor
        · intro ha
          exact ⟨Or.inr ha, ne_of_gt (hx_lt a ha)⟩
        · rintro ⟨rfl | ha, hak⟩
          · exact absurd rfl hak
          · exact ha
      · have hkx : key < x := by
          rcases lt_trichotomy x key with h' | h' | h'
          · exact absurd h' hx
          · exact absurd h' hk
          · exact h'
        simp only [hx, if_false, hk, if_false, List.mem_cons]
        constructor
        · rintro (rfl | ha)
          · exact ⟨Or.inl rfl, Ne.symm (ne_of_lt hkx)⟩
          · exact ⟨Or.inr ha, Ne.symm (ne_of_lt (lt_trans hkx (hx_lt a ha)))⟩
        · rintro ⟨ha, _⟩
          exact ha

/-- `Item` from the source: one stored value, a string type tag plus three
payload fields of which only the one matching the tag is used.  The Go zero
values of the payload fields are `""`, `nil`, `nil`. -/
structure Item where
  stringValue : String := ""
  listValue : Option (List String) := none
  mapValue : Option (List (String × String)) := none
  type : String := ""
deriving Repr, DecidableEq

/-- `Storage` from the source: the key-to-item mapping and the sorted key
index.  (The `sync.RWMutex` only serializes access and has no effect on the
sequential semantics modelled here.) -/
structure Storage where
  items : List (String × Item)
  index : List String
deriving Repr, DecidableEq

/-- `New` from the source: an empty mapping and an empty index. -/
def Storage.New : Storage := { items := [], index := [] }

/-- `checkkey` from the source: look the key up; when absent either fail
(`create = false`) or register the key in the index and store a fresh item
of the expected type; when present with the wrong type fail, otherwise
return the item.  The returned `Storage` carries the mutation performed by
the auto-vivification path. -/
def Storage.checkkey (s : Storage) (key expectedType : String) (create : Bool) :
    Except String (Item × Storage) :=
  match lookupKey s.items key with
  | none =>
    if ¬ create then Except.error ("key " ++ key ++ " does not exist")
    else
      let i : Item := { type := expectedType }
      Except.ok (i, { items := assocSet s.items key i,
                      index := updateIndex s.index key true })
  | some i =>
    if ¬ (i.type = expectedType) then
      Except.error ("type " ++ i.type ++ " is not " ++ expectedType)
    else Except.ok (i, s)

/-- The shape of a Go `interface\x7b\x7d` value passed to `Set`: the five
shapes the `switch` of `Set` recognizes, and `other` for every other
dynamic type (for which `Set` hits its `default` branch). -/
inductive GoValue where
  | str : String → GoValue
  | strList : List String → GoValue
  | strMap : List (String × String) → GoValue
  | anyList : List GoValue → GoValue
  | anyMap : List (String × GoValue) → GoValue
  | other : GoValue

mutual
/-- Models `fmt.Sprintf("%s", v)` as used by `Set` to stringify the
elements of a `[]interface\x7b\x7d` / `map[string]interface\x7b\x7d`: a
string value prints as itself.  The exact text produced for non-string
values (Go prints `[a b]`, `map[k:v]`, `%!s(int=7)`, ...) is irrelevant to
every property below; it is rendered structurally. -/
def goSprintf : GoValue → String
  | .str s => s
  | .strList l => "[" ++ String.intercalate " " l ++ "]"
  | .strMap m => "map[" ++ String.intercalate " " (m.map (fun p => p.1 ++ ":" ++ p.2)) ++ "]"
  | .anyList l => "[" ++ String.intercalate " " (sprintGoList l) ++ "]"
  | .anyMap m =>
    "map[" ++ String.intercalate " " ((sprintGoPairs m).map (fun p => p.1 ++ ":" ++ p.2)) ++ "]"
  | .other => "%!s(value)"

/-- `for index, val := range v \x7b listValue[index] = Sprintf("%s", val) \x7d`. -/
def sprintGoList : List GoValue → List String
  | [] => []
  | v :: vs => goSprintf v :: sprintGoList vs

/-- `for key, val := range v \x7b mapValue[key] = Sprintf("%s", val) \x7d`. -/
def sprintGoPairs : List (String × GoValue) → List (String × String)
  | [] => []
  | (k, v) :: rest => (k, goSprintf v) :: sprintGoPairs rest
end

/-- The `switch v := value.(type)` of `Set`: the item built for each
accepted shape, `none` for the `default` branch. -/
def itemOfValue : GoValue → Option Item
  | .str v => some { stringValue := v, type := "string" }
  | .strList v => some { listValue := some v, type := "list" }
  | .strMap v => some { mapValue := some v, type := "map" }
  | .anyList v => some { listValue := some (sprintGoList v), type := "list" }
  | .anyMap v => some { mapValue := some (sprintGoPairs v), type := "map" }
  | .other => none

/-- One hex digit, lower case (for `\uXXXX` escapes). -/
def hexDigit (n : Nat) : String :=
  String.singleton (Char.ofNat (if n < 10 then 48 + n else 87 + n))

/-- Models the string escaper of `encoding/json` (Go escapes `"`, `\`,
control characters, and HTML-escapes `<`, `>`, `&`). -/
def jsonEscapeChar (c : Char) : String :=
  if c = '"' then "\\\""
  else if c = '\\' then "\\\\"
  else if c = '\n' then "\\n"
  else if c = '\r' then "\\r"
  else if c = '\t' then "\\t"
  else if c = '<' then "\\u003c"
  else if c = '>' then "\\u003e"
  else if c = '&' then "\\u0026"
  else if c.toNat < 32 then "\\u00" ++ hexDigit (c.toNat / 16) ++ hexDigit (c.toNat % 16)
  else String.singleton c

/-- `json.Marshal` of a Go string: a quoted, escaped scalar. -/
def jsonQuote (s : String) : String :=
  "\"" ++ String.join (s.data.map jsonEscapeChar) ++ "\""

/-- `json.Marshal` of a non-nil `[]string`. -/
def jsonArr (l : List String) : String :=
  "[" ++ String.intercalate "," (l.map jsonQuote) ++ "]"

/-- Insert a pair into a key-sorted list of pairs (Go's `json.Marshal`
emits map keys in sorted order). -/
def insertPairByKey (p : String × String) : List (String × String) → List (String × String)
  | [] => [p]
  | q :: qs => if p.1 ≤ q.1 then p :: q :: qs else q :: insertPairByKey p qs

/-- Sort an association list by key, as `json.Marshal` does for maps. -/
def sortPairsByKey (m : List (String × String)) : List (String × String) :=
  m.foldr insertPairByKey []

/-- `json.Marshal` of a non-nil `map[string]string`: keys in sorted order. -/
def jsonObj (m : List (String × String)) : String :=
  "\x7b" ++
    String.intercalate "," ((sortPairsByKey m).map (fun p => jsonQuote p.1 ++ ":" ++ jsonQuote p.2))
    ++ "\x7d"

/-- `json.Marshal` of a nilable `[]string` (`nil` marshals to `null`). -/
def jsonOptArr : Option (List String) → String
  | none => "null"
  | some l => jsonArr l

/-- `json.Marshal` of a nilable `map[string]string`. -/
def jsonOptObj : Option (List (String × String)) → String
  | none => "null"
  | some m => jsonObj m

/-- `Get` from the source: marshal the payload selected by the type tag. -/
def Storage.Get (s : Storage) (key : String) : Except String String :=
  match lookupKey s.items key with
  | none => Except.error "item does not exist"
  | some i =>
    if i.type = "string" then Except.ok (jsonQuote i.stringValue)
    else if i.type = "list" then Except.ok (jsonOptArr i.listValue)
    else if i.type = "map" then Except.ok (jsonOptObj i.mapValue)
    else Except.error "unknown type"

/-- `Set` from the source: build an item from the accepted value shape (or
fail), register the key in the index when new, and store the item,
replacing any previous one. -/
def Storage.Set (s : Storage) (key : String) (value : GoValue) : Except String Storage :=
  match itemOfValue value with
  | none => Except.error "unknown type"
  | some i =>
    let s' := if (lookupKey s.items key).isSome then s
              else { s with index := updateIndex s.index key true }
    Except.ok { s' with items := assocSet s'.items key i }

/-- `Delete` from the source: drop the key from the index when present,
then from the mapping; never fails. -/
def Storage.Delete (s : Storage) (key : String) : Storage :=
  let s' := if (lookupKey s.items key).isSome then
              { s with index := updateIndex s.index key false }
            else s
  { s' with items := eraseKey s'.items key }

/-- `Append` from the source: check/auto-vivify a list item, initialize a
nil payload to the empty list, and push the value on the end. -/
def Storage.Append (s : Storage) (key value : String) : Except String Storage :=
  match s.checkkey key "list" true with
  | Except.error e => Except.error e
  | Except.ok (i, s') =>
    let l := i.listValue.getD []
    Except.ok { s' with items := assocSet s'.items key { i with listValue := some (l ++ [value]) } }

/-- `Pop` from the source: check the key exists as a list (no
auto-vivification), fail on an empty (or nil) payload, otherwise remove and
return the last element.  (Go mutates the item through its pointer; this is
the corresponding functional write-back.) -/
def Storage.Pop (s : Storage) (key : String) : Except String (String × Storage) :=
  match s.checkkey key "list" false with
  | Except.error e => Except.error e
  | Except.ok (i, s') =>
    let l := i.listValue.getD []
    match l.getLast? with
    | none => Except.error "list is empty"
    | some v =>
      Except.ok (v, { s' with items := assocSet s'.items key { i with listValue := some l.dropLast } })

/-- `MapGet` from the source: check the key exists as a map (no
auto-vivification); a nil payload or an absent map key fails. -/
def Storage.MapGet (s : Storage) (key mkey : String) : Except String String :=
  match s.checkkey key "map" false with
  | Except.error e => Except.error e
  | Except.ok (i, _) =>
    match i.mapValue with
    | none => Except.error ("map key " ++ mkey ++ " does not exists")
    | some m =>
      match lookupKey m mkey with
      | some v => Except.ok v
      | none => Except.error ("map key " ++ mkey ++ " does not exists")

/-- `MapSet` from the source: check/auto-vivify a map item, initialize a
nil payload, and insert or overwrite the map key. -/
def Storage.MapSet (s : Storage) (key mkey value : String) : Except String Storage :=
  match s.checkkey key "map" true with
  | Except.error e => Except.error e
  | Except.ok (i, s') =>
    let m := i.mapValue.getD []
    Except.ok { s' with items := assocSet s'.items key { i with mapValue := some (assocSet m mkey value) } }

/-- `MapDelete` from the source: check the key exists as a map (no
auto-vivification), initialize a nil payload, and delete the map key
(a no-op when absent). -/
def Storage.MapDelete (s : Storage) (key mkey : String) : Except String Storage :=
  match s.checkkey key "map" false with
  | Except.error e => Except.error e
  | Except.ok (i, s') =>
    let m := i.mapValue.getD []
    Except.ok { s' with items := assocSet s'.items key { i with mapValue := some (eraseKey m mkey) } }

/-- All suffixes of a character list, longest first. -/
def tails : List Char → List (List Char)
  | [] => [[]]
  | c :: s => (c :: s) :: tails s

/-- Models `glob.Glob pattern subj` (library `github.com/ryanuber/go-glob`)
by its documented contract: the only special character is `*`, which
matches any number of characters; matching is case-sensitive and anchored
at both ends.  A `*` consumes an arbitrary prefix of the subject, so the
rest of the pattern must match one of the subject's suffixes. -/
def globMatch : List Char → List Char → Bool
  | [], s => s.isEmpty
  | c :: ps, s =>
    if c = '*' then (tails s).any (fun t => globMatch ps t)
    else
      match s with
      | [] => false
      | c' :: s' => c == c' && globMatch ps s'

/-- `GetIndex` from the source.  `none` models the Go runtime panic (index
out of range): the exact-match branch reads `s.index[i]` without checking
that the binary-search position `i` is within bounds.
`strings.Split(search, "*")` has exactly one part precisely when `search`
contains no `*`. -/
def Storage.GetIndex (s : Storage) (search : String) : Option (List String) :=
  if search = "*" then some s.index
  else if ¬ (search.data.contains '*') then
    let i := lowerBound s.index search
    match s.index[i]? with
    | none => none
    | some v => if ¬ (v = search) then some [] else some [v]
  else
    some (s.index.filter (fun v => globMatch search.data v.data))

/-- One invocation of a public operation of the engine. -/
inductive Op where
  | set : String → GoValue → Op
  | get : String → Op
  | delete : String → Op
  | append : String → String → Op
  | pop : String → Op
  | mapGet : String → String → Op
  | mapSet : String → String → String → Op
  | mapDelete : String → String → Op
  | getIndex : String → Op

/-- The state after one operation: an operation that fails returns before
mutating, so it leaves the state unchanged; read-only operations never
touch the state. -/
def applyOp (s : Storage) : Op → Storage
  | .set k v => match s.Set k v with | .ok s' => s' | .error _ => s
  | .get _ => s
  | .delete k => s.Delete k
  | .append k v => match s.Append k v with | .ok s' => s' | .error _ => s
  | .pop k => match s.Pop k with | .ok p => p.2 | .error _ => s
  | .mapGet _ _ => s
  | .mapSet k mk v => match s.MapSet k mk v with | .ok s' => s' | .error _ => s
  | .mapDelete k mk => match s.MapDelete k mk with | .ok s' => s' | .error _ => s
  | .getIndex _ => s

/-- A sequence of public operations applied to a fresh store. -/
def run (ops : List Op) : Storage := ops.foldl applyOp Storage.New

/-- The index/mapping invariant of the engine: the index is strictly
sorted (hence duplicate-free) and holds exactly the keys of the mapping. -/
def Invariant (s : Storage) : Prop :=
  s.index.Sorted (· < ·) ∧ ∀ k, k ∈ s.index ↔ (lookupKey s.items k).isSome

theorem invariant_new : Invariant Storage.New := by
  constructor
  · simp [Storage.New]
  · intro k
    simp [Storage.New]

theorem invariant_register (s : Storage) (key : String) (i : Item)
    (h : Invariant s) :
    Invariant { items := assocSet s.items key i, index := updateIndex s.index key true } := by
  obtain ⟨hs, hm⟩ := h
  refine ⟨sorted_updateIndex_add _ _ hs, ?_⟩
  intro a
  rw [show ({ items := assocSet s.items key i, index := updateIndex s.index key true } :
      Storage).index = updateIndex s.index key true from rfl]
  rw [mem_updateIndex_add]
  by_cases ha : a = key
  · simp [ha, lookupKey_assocSet]
  · simp [ha, lookupKey_assocSet, hm a]

theorem invariant_overwrite (s : Storage) (key : String) (i : Item)
    (hk : (lookupKey s.items key).isSome) (h : Invariant s) :
    Invariant { s with items := assocSet s.items key i } := by
  obtain ⟨hs, hm⟩ := h
  refine ⟨hs, ?_⟩
  intro a
  by_cases ha : a = key
  · subst ha
    simp only [lookupKey_assocSet, if_pos rfl]
    simpa [hk] using (hm a).2 hk
  · simpa [ha] using hm a

theorem invariant_remove (s : Storage) (key : String)
    (h : Invariant s) :
    Invariant { items := eraseKey s.items key, index := updateIndex s.index key false } := by
  obtain ⟨hs, hm⟩ := h
  refine ⟨sorted_updateIndex_remove _ _ hs, ?_⟩
  intro a
  rw [show ({ items := eraseKey s.items key, index := updateIndex s.index key false } :
      Storage).index = updateIndex s.index key false from rfl]
  rw [mem_updateIndex_remove _ _ _ hs]
  by_cases ha : a = key
  · simp [ha]
  · simp [ha, hm a]

theorem invariant_checkkey (s : Storage) (key t : String) (c : Bool) (i : Item) (s' : Storage)
    (h : Invariant s) (hc : s.checkkey key t c = Except.ok (i, s')) :
    Invariant s' ∧ (lookupKey s'.items key).isSome := by
  unfold Storage.checkkey at hc
  cases hl : lookupKey s.items key with
  | none =>
    rw [hl] at hc
    by_cases hcr : c
    · simp only [hcr, not_true_eq_false, if_false, Except.ok.injEq, Prod.mk.injEq] at hc
      obtain ⟨-, hs'⟩ := hc
      subst hs'
      refine ⟨invariant_register s key _ h, ?_⟩
      simp [lookupKey_assocSet]
    · simp [hcr] at hc
  | some i0 =>
    rw [hl] at hc
    by_cases ht : i0.type = t
    · simp only [ht, not_true_eq_false, if_false, Except.ok.injEq, Prod.mk.injEq] at hc
      obtain ⟨-, hs'⟩ := hc
      subst hs'
      exact ⟨h, by simp [hl]⟩
    · simp [ht] at hc

theorem invariant_set (s : Storage) (k : String) (v : GoValue) (s' : Storage)
    (h : Invariant s) (hset : s.Set k v = Except.ok s') : Invariant s' := by
  unfold Storage.Set at hset
  cases hv : itemOfValue v with
  | none => rw [hv] at hset; exact absurd hset (by simp)
  | some i =>
    rw [hv] at hset
    simp only [Except.ok.injEq] at hset
    subst hset
    by_cases hl : (lookupKey s.items k).isSome
    · simpa [hl] using invariant_overwrite s k i hl h
    · simpa [hl] using invariant_register s k i h

theorem invariant_delete (s : Storage) (k : String) (h : Invariant s) :
    Invariant (s.Delete k) := by
  unfold Storage.Delete
  by_cases hl : (lookupKey s.items k).isSome
  · simpa [hl] using invariant_remove s k h
  · simp only [hl, if_false]
    obtain ⟨hs, hm⟩ := h
    refine ⟨hs, ?_⟩
    intro a
    show a ∈ s.index ↔ (lookupKey (eraseKey s.items k) a).isSome
    rw [lookupKey_eraseKey]
    by_cases ha : a = k
    · subst ha
      simp only [if_pos rfl, if_true, Option.isSome_none, Bool.false_eq_true, iff_false]
      intro hmem
      exact hl ((hm a).1 hmem)
    · rw [if_neg ha]
      exact hm a

theorem invariant_writeback (s : Storage) (key t : String) (c : Bool) (i : Item) (s' : Storage)
    (i' : Item) (h : Invariant s) (hc : s.checkkey key t c = Except.ok (i, s')) :
    Invariant { s' with items := assocSet s'.items key i' } := by
  obtain ⟨hinv', hsome⟩ := invariant_checkkey s key t c i s' h hc
  exact invariant_overwrite s' key i' hsome hinv'

theorem invariant_append (s : Storage) (k v : String) (s2 : Storage)
    (h : Invariant s) (ha : s.Append k v = Except.ok s2) : Invariant s2 := by
  unfold Storage.Append at ha
  cases hc : s.checkkey k "list" true with
  | error e => rw [hc] at ha; exact absurd ha (by simp)
  | ok q =>
    obtain ⟨i, s0⟩ := q
    rw [hc] at ha
    simp only [Except.ok.injEq] at ha
    subst ha
    exact invariant_writeback s k "list" true i s0 _ h hc

theorem invariant_pop (s : Storage) (k v : String) (s2 : Storage)
    (h : Invariant s) (hp : s.Pop k = Except.ok (v, s2)) : Invariant s2 := by
  unfold Storage.Pop at hp
  cases hc : s.checkkey k "list" false with
  | error e => rw [hc] at hp; exact absurd hp (by simp)
  | ok q =>
    obtain ⟨i, s0⟩ := q
    rw [hc] at hp
    cases hl : (i.listValue.getD []).getLast? with
    | none =>
      simp only [hl] at hp
      exact absurd hp (by simp)
    | some w =>
      simp only [hl, Except.ok.injEq, Prod.mk.injEq] at hp
      obtain ⟨-, hs2⟩ := hp
      subst hs2
      exact invariant_writeback s k "list" false i s0 _ h hc

theorem invariant_mapSet (s : Storage) (k mk v : String) (s2 : Storage)
    (h : Invariant s) (hm : s.MapSet k mk v = Except.ok s2) : Invariant s2 := by
  unfold Storage.MapSet at hm
  cases hc : s.checkkey k "map" true with
  | error e => rw [hc] at hm; exact absurd hm (by simp)
  | ok q =>
    obtain ⟨i, s0⟩ := q
    rw [hc] at hm
    simp only [Except.ok.injEq] at hm
    subst hm
    exact invariant_writeback s k "map" true i s0 _ h hc

theorem invariant_mapDelete (s : Storage) (k mk : String) (s2 : Storage)
    (h : Invariant s) (hm : s.MapDelete k mk = Except.ok s2) : Invariant s2 := by
  unfold Storage.MapDelete at hm
  cases hc : s.checkkey k "map" false with
  | error e => rw [hc] at hm; exact absurd hm (by simp)
  | ok q =>
    obtain ⟨i, s0⟩ := q
    rw [hc] at hm
    simp only [Except.ok.injEq] at hm
    subst hm
    exact invariant_writeback s k "map" false i s0 _ h hc

theorem invariant_applyOp (s : Storage) (op : Op) (h : Invariant s) :
    Invariant (applyOp s op) := by
  cases op with
  | set k v =>
    simp only [applyOp]
    cases hset : s.Set k v with
    | ok s' => exact invariant_set s k v s' h hset
    | error e => exact h
  | get k => exact h
  | delete k => exact invariant_delete s k h
  | append k v =>
    simp only [applyOp]
    cases happ : s.Append k v with
    | ok s' => exact invariant_append s k v s' h happ
    | error e => exact h
  | pop k =>
    simp only [applyOp]
    cases hpop : s.Pop k with
    | ok p =>
      obtain ⟨v0, s2⟩ := p
      exact invariant_pop s k v0 s2 h hpop
    | error e => exact h
  | mapGet k mk => exact h
  | mapSet k mk v =>
    simp only [applyOp]
    cases hms : s.MapSet k mk v with
    | ok s' => exact invariant_mapSet s k mk v s' h hms
    | error e => exact h
  | mapDelete k mk =>
    simp only [applyOp]
    cases hmd : s.MapDelete k mk with
    | ok s' => exact invariant_mapDelete s k mk s' h hmd
    | error e => exact h
  | getIndex p => exact h

theorem invariant_foldl (ops : List Op) (s : Storage) (h : Invariant s) :
    Invariant (ops.foldl applyOp s) := by
  induction ops generalizing s with
  | nil => exact h
  | cons op rest ih => exact ih (applyOp s op) (invariant_applyOp s op h)

theorem invariant_run (ops : List Op) : Invariant (run ops) :=
  invariant_foldl ops Storage.New invariant_new

/-- C2: after any sequence of public operations on a fresh store, the index
is sorted ascending, duplicate-free, and holds exactly the keys present in
the mapping. -/
theorem index_is_sorted_key_set (ops : List Op) :
    (run ops).index.Sorted (· < ·) ∧ (run ops).index.Nodup ∧
      ∀ k, k ∈ (run ops).index ↔ (lookupKey (run ops).items k).isSome := by
  obtain ⟨hs, hm⟩ := invariant_run ops
  exact ⟨hs, hs.nodup, hm⟩

/-- The value of a decoded JSON leaf when it is a string (the only leaf
shape whose `json.Marshal` round trip is modelled; `Set` stringifies
exactly these without loss). -/
def strAtom : GoValue → Option String
  | .str s => some s
  | _ => none

/-- The strings of a `[]interface\x7b\x7d` whose elements are all strings. -/
def marshalStrs : List GoValue → Option (List String)
  | [] => some []
  | v :: vs =>
    match strAtom v, marshalStrs vs with
    | some s, some ss => some (s :: ss)
    | _, _ => none

/-- The pairs of a `map[string]interface\x7b\x7d` whose values are all strings. -/
def marshalStrPairs : List (String × GoValue) → Option (List (String × String))
  | [] => some []
  | (k, v) :: vs =>
    match strAtom v, marshalStrPairs vs with
    | some s, some ps => some ((k, s) :: ps)
    | _, _ => none

/-- Models `json.Marshal(v)` applied directly to a value `v` of one of the
supported shapes: a string, a sequence of string-convertible values, or a
string-to-string(-convertible) mapping.  `none` for shapes whose direct
marshalling is outside the supported/convertible classes. -/
def marshalDirect : GoValue → Option String
  | .str s => some (jsonQuote s)
  | .strList l => some (jsonArr l)
  | .strMap m => some (jsonObj m)
  | .anyList l => (marshalStrs l).map jsonArr
  | .anyMap m => (marshalStrPairs m).map jsonObj
  | .other => none

theorem strAtom_eq_sprint (v : GoValue) (s : String) (h : strAtom v = some s) :
    goSprintf v = s := by
  cases v <;> simp [strAtom] at h
  simpa [goSprintf] using h

theorem marshalStrs_eq_sprint (l : List GoValue) (ss : List String)
    (h : marshalStrs l = some ss) : ss = sprintGoList l := by
  induction l generalizing ss with
  | nil =>
    simp only [marshalStrs, Option.some.injEq] at h
    simp [← h, sprintGoList]
  | cons v vs ih =>
    cases hv : strAtom v with
    | none => simp [marshalStrs, hv] at h
    | some s =>
      cases hvs : marshalStrs vs with
      | none => simp [marshalStrs, hv, hvs] at h
      | some ss' =>
        simp only [marshalStrs, hv, hvs, Option.some.injEq] at h
        simp [← h, sprintGoList, strAtom_eq_sprint v s hv, ih ss' hvs]

theorem marshalStrPairs_eq_sprint (m : List (String × GoValue)) (ps : List (String × String))
    (h : marshalStrPairs m = some ps) : ps = sprintGoPairs m := by
  induction m generalizing ps with
  | nil =>
    simp only [marshalStrPairs, Option.some.injEq] at h
    simp [← h, sprintGoPairs]
  | cons p rest ih =>
    obtain ⟨k, v⟩ := p
    cases hv : strAtom v with
    | none => simp [marshalStrPairs, hv] at h
    | some s =>
      cases hrest : marshalStrPairs rest with
      | none => simp [marshalStrPairs, hv, hrest] at h
      | some ps' =>
        simp only [marshalStrPairs, hv, hrest, Option.some.injEq] at h
        simp [← h, sprintGoPairs, strAtom_eq_sprint v s hv, ih ps' hrest]

/-- C3: for every supported value, `Set` then `Get` yields exactly the
serialization of the value itself. -/
theorem set_get_roundtrip (s : Storage) (k : String) (v : GoValue) (out : String)
    (h : marshalDirect v = some out) :
    ∃ s', s.Set k v = Except.ok s' ∧ s'.Get k = Except.ok out := by
  cases v with
  | str t =>
    simp only [marshalDirect, Option.some.injEq] at h
    refine ⟨_, rfl, ?_⟩
    unfold Storage.Get
    simp [Storage.Set, itemOfValue, lookupKey_assocSet, ← h]
  | strList l =>
    simp only [marshalDirect, Option.some.injEq] at h
    refine ⟨_, rfl, ?_⟩
    unfold Storage.Get
    simp [Storage.Set, itemOfValue, lookupKey_assocSet, jsonOptArr, ← h]
  | strMap m =>
    simp only [marshalDirect, Option.some.injEq] at h
    refine ⟨_, rfl, ?_⟩
    unfold Storage.Get
    simp [Storage.Set, itemOfValue, lookupKey_assocSet, jsonOptObj, ← h]
  | anyList l =>
    simp only [marshalDirect, Option.map_eq_some'] at h
    obtain ⟨ss, hss, hout⟩ := h
    obtain rfl : ss = sprintGoList l := marshalStrs_eq_sprint l ss hss
    refine ⟨_, rfl, ?_⟩
    unfold Storage.Get
    simp [Storage.Set, itemOfValue, lookupKey_assocSet, jsonOptArr, ← hout]
  | anyMap m =>
    simp only [marshalDirect, Option.map_eq_some'] at h
    obtain ⟨ps, hps, hout⟩ := h
    obtain rfl : ps = sprintGoPairs m := marshalStrPairs_eq_sprint m ps hps
    refine ⟨_, rfl, ?_⟩
    unfold Storage.Get
    simp [Storage.Set, itemOfValue, lookupKey_assocSet, jsonOptObj, ← hout]
  | other => simp [marshalDirect] at h

/-- Witness for C3 at a concrete input. -/
theorem set_get_roundtrip_witness :
    marshalDirect (GoValue.str "hello") = some "\"hello\"" ∧
      ∃ s', Storage.New.Set "a" (GoValue.str "hello") = Except.ok s' ∧
        s'.Get "a" = Except.ok "\"hello\"" :=
  ⟨by decide, set_get_roundtrip Storage.New "a" (GoValue.str "hello") "\"hello\"" (by decide)⟩

/-- C1 (refuting evidence): the wildcard-free branch of `GetIndex` reads
the binary-search position without a bounds check.  On a fresh (empty)
store, and likewise when the pattern sorts after every indexed key, the
access is out of range — the Go program panics (`none` here) instead of
returning the empty sequence the claim requires. -/
theorem getIndex_exact_match_out_of_range :
    Storage.New.GetIndex "a" = none ∧
      ({ items := [("aaa", { type := "string" })], index := ["aaa"] } : Storage).GetIndex "zzz"
        = none := by
  refine ⟨by decide, ?_⟩
  have hlt : ("aaa" : String) < "zzz" := by
    rw [String.lt_iff_toList_lt]
    decide
  have hlb : lowerBound ["aaa"] "zzz" = 1 := by simp [lowerBound, hlt]
  have hne : ¬ (("zzz" : String) = "*") := by decide
  have hstar : (("zzz" : String).data.contains '*') = false := by decide
  simp [Storage.GetIndex, hlb, hne, hstar]

theorem checkkey_mismatch (s : Storage) (k t : String) (c : Bool) (it : Item)
    (hk : lookupKey s.items k = some it) (ht : it.type ≠ t) :
    s.checkkey k t c = Except.error ("type " ++ it.type ++ " is not " ++ t) := by
  unfold Storage.checkkey
  rw [hk]
  simp [ht]

theorem checkkey_absent_fail (s : Storage) (k t : String)
    (hk : lookupKey s.items k = none) :
    s.checkkey k t false = Except.error ("key " ++ k ++ " does not exist") := by
  unfold Storage.checkkey
  rw [hk]
  simp

theorem checkkey_absent_create (s : Storage) (k t : String)
    (hk : lookupKey s.items k = none) :
    s.checkkey k t true = Except.ok (({ type := t } : Item),
      { items := assocSet s.items k { type := t },
        index := updateIndex s.index k true }) := by
  unfold Storage.checkkey
  rw [hk]
  simp

theorem checkkey_present (s : Storage) (k t : String) (c : Bool) (it : Item)
    (hk : lookupKey s.items k = some it) (ht : it.type = t) :
    s.checkkey k t c = Except.ok (it, s) := by
  unfold Storage.checkkey
  rw [hk]
  simp [ht]

/-- C4: when key `k` holds an item of some type, every typed accessor or
mutator expecting a different type fails with the type-mismatch error —
with or without auto-vivification — and the state (stored value, rest of
the mapping, index) is left unchanged. -/
theorem type_mismatch_guard (s : Storage) (k : String) (it : Item)
    (hk : lookupKey s.items k = some it) :
    (it.type ≠ "list" →
      ∀ v, s.Append k v = Except.error ("type " ++ it.type ++ " is not " ++ "list") ∧
        applyOp s (Op.append k v) = s ∧
        s.Pop k = Except.error ("type " ++ it.type ++ " is not " ++ "list") ∧
        applyOp s (Op.pop k) = s) ∧
    (it.type ≠ "map" →
      ∀ mk v, s.MapGet k mk = Except.error ("type " ++ it.type ++ " is not " ++ "map") ∧
        applyOp s (Op.mapGet k mk) = s ∧
        s.MapSet k mk v = Except.error ("type " ++ it.type ++ " is not " ++ "map") ∧
        applyOp s (Op.mapSet k mk v) = s ∧
        s.MapDelete k mk = Except.error ("type " ++ it.type ++ " is not " ++ "map") ∧
        applyOp s (Op.mapDelete k mk) = s) := by
  constructor
  · intro ht v
    have hc := checkkey_mismatch s k "list" true it hk ht
    have hc' := checkkey_mismatch s k "list" false it hk ht
    have h1 : s.Append k v = Except.error ("type " ++ it.type ++ " is not " ++ "list") := by
      unfold Storage.Append
      rw [hc]
    have h2 : s.Pop k = Except.error ("type " ++ it.type ++ " is not " ++ "list") := by
      unfold Storage.Pop
      rw [hc']
    refine ⟨h1, ?_, h2, ?_⟩
    · simp only [applyOp, h1]
    · simp only [applyOp, h2]
  · intro ht mk v
    have hc := checkkey_mismatch s k "map" true it hk ht
    have hc' := checkkey_mismatch s k "map" false it hk ht
    have h1 : s.MapGet k mk = Except.error ("type " ++ it.type ++ " is not " ++ "map") := by
      unfold Storage.MapGet
      rw [hc']
    have h2 : s.MapSet k mk v = Except.error ("type " ++ it.type ++ " is not " ++ "map") := by
      unfold Storage.MapSet
      rw [hc]
    have h3 : s.MapDelete k mk = Except.error ("type " ++ it.type ++ " is not " ++ "map") := by
      unfold Storage.MapDelete
      rw [hc']
    refine ⟨h1, rfl, h2, ?_, h3, ?_⟩
    · simp only [applyOp, h2]
    · simp only [applyOp, h3]

/-- A concrete one-key store holding a string item (for witnesses). -/
def sampleStringStore : Storage :=
  { items := [("c", { stringValue := "s", type := "string" })], index := ["c"] }

/-- Witness for C4: a string-typed key rejects the list and map mutators. -/
theorem type_mismatch_guard_witness :
    lookupKey sampleStringStore.items "c" = some { stringValue := "s", type := "string" } ∧
      sampleStringStore.Append "c" "b" =
        Except.error ("type " ++ "string" ++ " is not " ++ "list") := by
  have h := type_mismatch_guard sampleStringStore
    "c" { stringValue := "s", type := "string" } (by decide)
  exact ⟨by decide, ((h.1 (by decide) "b").1)⟩

/-- C5: auto-vivification asymmetry — on an absent key `Append` and
`MapSet` create a fresh item of the expected type and register the key in
the index, while `Pop`, `MapGet` and `MapDelete` fail with the
key-not-found error and leave the state unchanged. -/
theorem auto_vivification_asymmetry (s : Storage) (k : String)
    (hk : lookupKey s.items k = none) :
    (∀ v, ∃ s', s.Append k v = Except.ok s' ∧
      lookupKey s'.items k =
        some { stringValue := "", listValue := some [v], mapValue := none, type := "list" } ∧
      k ∈ s'.index) ∧
    (∀ mk v, ∃ s', s.MapSet k mk v = Except.ok s' ∧
      lookupKey s'.items k =
        some { stringValue := "", listValue := none, mapValue := some [(mk, v)], type := "map" } ∧
      k ∈ s'.index) ∧
    (s.Pop k = Except.error ("key " ++ k ++ " does not exist") ∧
      applyOp s (Op.pop k) = s) ∧
    (∀ mk, s.MapGet k mk = Except.error ("key " ++ k ++ " does not exist") ∧
      applyOp s (Op.mapGet k mk) = s ∧
      s.MapDelete k mk = Except.error ("key " ++ k ++ " does not exist") ∧
      applyOp s (Op.mapDelete k mk) = s) := by
  have hcc := checkkey_absent_create s k "list" hk
  have hcm := checkkey_absent_create s k "map" hk
  have hcf := checkkey_absent_fail s k "list" hk
  have hcf' := checkkey_absent_fail s k "map" hk
  refine ⟨?_, ?_, ?_, ?_⟩
  · intro v
    refine ⟨{ items := assocSet (assocSet s.items k { type := "list" }) k
                  { stringValue := "", listValue := some [v], mapValue := none,
                    type := "list" },
                index := updateIndex s.index k true }, ?_, ?_, ?_⟩
    · unfold Storage.Append
      rw [hcc]
      rfl
    · simp [lookupKey_assocSet]
    · show k ∈ updateIndex s.index k true
      rw [mem_updateIndex_add]
      exact Or.inr rfl
  · intro mk v
    refine ⟨{ items := assocSet (assocSet s.items k { type := "map" }) k
                  { stringValue := "", listValue := none, mapValue := some [(mk, v)],
                    type := "map" },
                index := updateIndex s.index k true }, ?_, ?_, ?_⟩
    · unfold Storage.MapSet
      rw [hcm]
      rfl
    · simp [lookupKey_assocSet]
    · show k ∈ updateIndex s.index k true
      rw [mem_updateIndex_add]
      exact Or.inr rfl
  · have h1 : s.Pop k = Except.error ("key " ++ k ++ " does not exist") := by
      unfold Storage.Pop
      rw [hcf]
    exact ⟨h1, by simp only [applyOp, h1]⟩
  · intro mk
    have h1 : s.MapGet k mk = Except.error ("key " ++ k ++ " does not exist") := by
      unfold Storage.MapGet
      rw [hcf']
    have h2 : s.MapDelete k mk = Except.error ("key " ++ k ++ " does not exist") := by
      unfold Storage.MapDelete
      rw [hcf']
    exact ⟨h1, rfl, h2, by simp only [applyOp, h2]⟩

/-- Witness for C5 on the fresh store. -/
theorem auto_vivification_asymmetry_witness :
    lookupKey Storage.New.items "k" = none ∧
      Storage.New.Pop "k" = Except.error ("key " ++ "k" ++ " does not exist") := by
  have h := auto_vivification_asymmetry Storage.New "k" (by decide)
  exact ⟨by decide, (h.2.2.1).1⟩

theorem eraseKey_eq_of_lookup_none {β : Type} (l : List (String × β)) (k : String)
    (h : lookupKey l k = none) : eraseKey l k = l := by
  induction l with
  | nil => rfl
  | cons p rest ih =>
    obtain ⟨k', v'⟩ := p
    by_cases hk : k' = k
    · rw [lookupKey_cons, if_pos hk] at h
      exact absurd h (by simp)
    · rw [lookupKey_cons, if_neg hk] at h
      simp [eraseKey, hk, ih h]

/-- Shared computation: `Pop` on a list item whose payload ends in `v`
returns `v` and writes back the item with the last element dropped. -/
theorem pop_ok_of_concat (s : Storage) (k : String) (it : Item) (l : List String) (v : String)
    (hk : lookupKey s.items k = some it) (ht : it.type = "list")
    (hl : it.listValue = some (l ++ [v])) :
    s.Pop k = Except.ok (v, { s with items := assocSet s.items k { it with listValue := some l } }) := by
  have hc := checkkey_present s k "list" false it hk ht
  unfold Storage.Pop
  rw [hc]
  simp [hl, List.getLast?_concat, List.dropLast_concat]

/-- C6: `Pop` on an existing list-typed key removes and returns the last
element (LIFO) leaving the rest in order; on an empty (or nil) payload it
fails with the empty-list error and changes nothing; on an absent key it
fails with key-not-found (no auto-vivification) and changes nothing. -/
theorem pop_lifo_spec (s : Storage) (k : String) (it : Item)
    (hk : lookupKey s.items k = some it) (ht : it.type = "list") :
    (∀ l v, it.listValue = some (l ++ [v]) →
      s.Pop k = Except.ok (v,
        { s with items := assocSet s.items k { it with listValue := some l } })) ∧
    ((it.listValue = none ∨ it.listValue = some []) →
      s.Pop k = Except.error "list is empty" ∧ applyOp s (Op.pop k) = s) ∧
    (∀ k', lookupKey s.items k' = none →
      s.Pop k' = Except.error ("key " ++ k' ++ " does not exist") ∧
        applyOp s (Op.pop k') = s) := by
  refine ⟨?_, ?_, ?_⟩
  · intro l v hl
    exact pop_ok_of_concat s k it l v hk ht hl
  · intro hl
    have hc := checkkey_present s k "list" false it hk ht
    have h1 : s.Pop k = Except.error "list is empty" := by
      unfold Storage.Pop
      rw [hc]
      rcases hl with hl | hl <;> simp [hl]
    exact ⟨h1, by simp only [applyOp, h1]⟩
  · intro k' hk'
    have hc := checkkey_absent_fail s k' "list" hk'
    have h1 : s.Pop k' = Except.error ("key " ++ k' ++ " does not exist") := by
      unfold Storage.Pop
      rw [hc]
    exact ⟨h1, by simp only [applyOp, h1]⟩

/-- A concrete one-key store holding the list ["x", "y"] (for witnesses). -/
def sampleListStore : Storage :=
  { items := [("l", { listValue := some ["x", "y"], type := "list" })], index := ["l"] }

/-- Witness for C6 on a concrete two-element list. -/
theorem pop_lifo_spec_witness :
    lookupKey sampleListStore.items "l" = some { listValue := some ["x", "y"], type := "list" } ∧
      sampleListStore.Pop "l" =
        Except.ok ("y",
          { items := [("l", { listValue := some ["x"], type := "list" })], index := ["l"] }) := by
  have h := pop_lifo_spec sampleListStore
    "l" { listValue := some ["x", "y"], type := "list" } (by decide) (by decide)
  have h2 := h.1 ["x"] "y" (by decide)
  refine ⟨by decide, ?_⟩
  rw [h2]
  rfl

/-- C10: a successful `Pop` — including one that empties the list — never
removes the key: the key stays in the mapping as a list item and stays in
the index; only the list payload of that one key changes. -/
theorem pop_never_removes_key (s : Storage) (k : String) (it : Item) (l : List String)
    (v : String) (hk : lookupKey s.items k = some it) (ht : it.type = "list")
    (hl : it.listValue = some (l ++ [v])) (hidx : k ∈ s.index) :
    ∃ s', s.Pop k = Except.ok (v, s') ∧
      lookupKey s'.items k = some { it with listValue := some l } ∧
      ({ it with listValue := some l }).type = "list" ∧
      ({ it with listValue := some l }).stringValue = it.stringValue ∧
      ({ it with listValue := some l }).mapValue = it.mapValue ∧
      s'.index = s.index ∧ k ∈ s'.index ∧
      ∀ k', k' ≠ k → lookupKey s'.items k' = lookupKey s.items k' := by
  refine ⟨{ s with items := assocSet s.items k { it with listValue := some l } },
    pop_ok_of_concat s k it l v hk ht hl, ?_, ht, rfl, rfl, rfl, hidx, ?_⟩
  · simp [lookupKey_assocSet]
  · intro k' hne
    simp [lookupKey_assocSet, hne]

/-- A concrete one-key store holding the singleton list ["z"] (for witnesses). -/
def sampleSingletonListStore : Storage :=
  { items := [("l", { listValue := some ["z"], type := "list" })], index := ["l"] }

/-- Witness for C10: popping the last remaining element keeps the key. -/
theorem pop_never_removes_key_witness :
    ∃ s', sampleSingletonListStore.Pop "l" = Except.ok ("z", s') ∧
      lookupKey s'.items "l" = some { listValue := some [], type := "list" } ∧
      "l" ∈ s'.index := by
  have h := pop_never_removes_key sampleSingletonListStore
    "l" { listValue := some ["z"], type := "list" } [] "z"
    (by decide) (by decide) (by decide) (by decide)
  obtain ⟨s', h1, h2, -, -, -, -, h7, -⟩ := h
  exact ⟨s', h1, h2, h7⟩

/-- C7: `Set` accepts exactly the five recognized shapes (everything else
is the `other` shape), fully replaces any existing item with one built
from the value alone, ensures the key is indexed, and touches nothing
else; on an unsupported shape it fails and changes nothing. -/
theorem set_shape_guard (s : Storage) (k : String) (v : GoValue)
    (hpk : (lookupKey s.items k).isSome → k ∈ s.index) :
    (itemOfValue v = none ↔ v = GoValue.other) ∧
    (∀ i, itemOfValue v = some i →
      ∃ s', s.Set k v = Except.ok s' ∧
        lookupKey s'.items k = some i ∧
        k ∈ s'.index ∧
        ∀ k', k' ≠ k →
          lookupKey s'.items k' = lookupKey s.items k' ∧ (k' ∈ s'.index ↔ k' ∈ s.index)) ∧
    (itemOfValue v = none →
      s.Set k v = Except.error "unknown type" ∧ applyOp s (Op.set k v) = s) := by
  refine ⟨?_, ?_, ?_⟩
  · cases v <;> simp [itemOfValue]
  · intro i hi
    by_cases hls : (lookupKey s.items k).isSome
    · refine ⟨{ s with items := assocSet s.items k i }, ?_, ?_, hpk hls, ?_⟩
      · unfold Storage.Set
        rw [hi]
        simp [hls]
      · simp [lookupKey_assocSet]
      · intro k' hne
        exact ⟨by simp [lookupKey_assocSet, hne], Iff.rfl⟩
    · refine ⟨{ items := assocSet s.items k i, index := updateIndex s.index k true },
        ?_, ?_, ?_, ?_⟩
      · unfold Storage.Set
        rw [hi]
        simp [hls]
      · simp [lookupKey_assocSet]
      · show k ∈ updateIndex s.index k true
        rw [mem_updateIndex_add]
        exact Or.inr rfl
      · intro k' hne
        refine ⟨by simp [lookupKey_assocSet, hne], ?_⟩
        show k' ∈ updateIndex s.index k true ↔ k' ∈ s.index
        rw [mem_updateIndex_add]
        simp [hne]
  · intro hi
    have h1 : s.Set k v = Except.error "unknown type" := by
      unfold Storage.Set
      rw [hi]
    exact ⟨h1, by simp only [applyOp, h1]⟩

/-- Witness for C7: setting a string on the fresh store, and rejecting an
unsupported value. -/
theorem set_shape_guard_witness :
    ((lookupKey Storage.New.items "a").isSome → "a" ∈ Storage.New.index) ∧
      Storage.New.Set "a" GoValue.other = Except.error "unknown type" ∧
      ∃ s', Storage.New.Set "a" (GoValue.str "x") = Except.ok s' ∧
        lookupKey s'.items "a" = some { stringValue := "x", type := "string" } := by
  have h := set_shape_guard Storage.New "a" GoValue.other (by decide)
  have h' := set_shape_guard Storage.New "a" (GoValue.str "x") (by decide)
  obtain ⟨s', h1, h2, -, -⟩ := h'.2.1 { stringValue := "x", type := "string" } (by decide)
  exact ⟨by decide, (h.2.2 (by decide)).1, s', h1, h2⟩

/-- C9: `Delete` always succeeds (it returns a state, never an error): on
a present key it removes the key from both the mapping and the index, on
an absent key it is the identity; other keys and index entries are
untouched. -/
theorem delete_spec (s : Storage) (k : String) (h : Invariant s) :
    (lookupKey s.items k = none → s.Delete k = s) ∧
    lookupKey (s.Delete k).items k = none ∧
    k ∉ (s.Delete k).index ∧
    ∀ k', k' ≠ k →
      lookupKey (s.Delete k).items k' = lookupKey s.items k' ∧
        (k' ∈ (s.Delete k).index ↔ k' ∈ s.index) := by
  obtain ⟨hs, hm⟩ := h
  have hnoop : lookupKey s.items k = none → s.Delete k = s := by
    intro hl
    unfold Storage.Delete
    simp [hl, eraseKey_eq_of_lookup_none s.items k hl]
  refine ⟨hnoop, ?_⟩
  by_cases hls : (lookupKey s.items k).isSome
  · have hdel : s.Delete k =
        { items := eraseKey s.items k, index := updateIndex s.index k false } := by
      unfold Storage.Delete
      simp [hls]
    rw [hdel]
    refine ⟨by simp, ?_, ?_⟩
    · show k ∉ updateIndex s.index k false
      rw [mem_updateIndex_remove _ _ _ hs]
      simp
    · intro k' hne
      refine ⟨by simp [hne], ?_⟩
      show k' ∈ updateIndex s.index k false ↔ k' ∈ s.index
      rw [mem_updateIndex_remove _ _ _ hs]
      simp [hne]
  · have hl : lookupKey s.items k = none := by
      cases hcase : lookupKey s.items k with
      | none => rfl
      | some it => rw [hcase] at hls; exact absurd rfl hls
    rw [hnoop hl]
    refine ⟨hl, ?_, fun k' hne => ⟨rfl, Iff.rfl⟩⟩
    intro hmem
    have := (hm k).1 hmem
    rw [hl] at this
    exact absurd this (by simp)

/-- Witness for C9: deleting the only key of a one-key store. -/
theorem delete_spec_witness :
    Invariant sampleStringStore ∧
      lookupKey (sampleStringStore.Delete "c").items "c" = none ∧
      "c" ∉ (sampleStringStore.Delete "c").index := by
  have hinv : Invariant sampleStringStore := by
    constructor
    · simp [sampleStringStore]
    · intro a
      by_cases ha : a = "c"
      · simp [sampleStringStore, ha]
      · simp [sampleStringStore, ha, Ne.symm ha]
  have h := delete_spec sampleStringStore "c" hinv
  exact ⟨hinv, h.2.1, h.2.2.1⟩

/-- The spec's glob-matching semantics: `*` matches any sequence of zero
or more characters, every other pattern character matches exactly itself;
matching is case-sensitive and anchored at both ends of the subject. -/
inductive GlobSpec : List Char → List Char → Prop where
  | nil : GlobSpec [] []
  | char {c : Char} {ps s : List Char} :
      c ≠ '*' → GlobSpec ps s → GlobSpec (c :: ps) (c :: s)
  | starSkip {ps s : List Char} : GlobSpec ps s → GlobSpec ('*' :: ps) s
  | starEat {c : Char} {ps s : List Char} :
      GlobSpec ('*' :: ps) s → GlobSpec ('*' :: ps) (c :: s)

theorem globSpec_nil_iff (s : List Char) : GlobSpec [] s ↔ s = [] := by
  constructor
  · intro h
    cases h
    rfl
  · intro h
    subst h
    exact GlobSpec.nil

theorem self_mem_tails (s : List Char) : s ∈ tails s := by
  cases s <;> simp [tails]

theorem mem_tails_cons (c : Char) (s t : List Char) (h : t ∈ tails s) :
    t ∈ tails (c :: s) := by
  simp only [tails, List.mem_cons]
  exact Or.inr h

theorem globSpec_star_iff (ps s : List Char) :
    GlobSpec ('*' :: ps) s ↔ ∃ t ∈ tails s, GlobSpec ps t := by
  constructor
  · intro h
    induction s with
    | nil =>
      cases h with
      | starSkip h' => exact ⟨[], by simp [tails], h'⟩
    | cons c s ih =>
      cases h with
      | char hne h' => exact absurd rfl hne
      | starSkip h' => exact ⟨c :: s, self_mem_tails _, h'⟩
      | starEat h' =>
        obtain ⟨t, ht, hts⟩ := ih h'
        exact ⟨t, mem_tails_cons c s t ht, hts⟩
  · rintro ⟨t, ht, hts⟩
    induction s with
    | nil =>
      simp [tails] at ht
      subst ht
      exact GlobSpec.starSkip hts
    | cons c s ih =>
      have ht' : t = c :: s ∨ t ∈ tails s := by simpa [tails] using ht
      rcases ht' with h | h
      · subst h
        exact GlobSpec.starSkip hts
      · exact GlobSpec.starEat (ih h)

theorem globMatch_iff_globSpec (p : List Char) :
    ∀ s, globMatch p s = true ↔ GlobSpec p s := by
  induction p with
  | nil =>
    intro s
    rw [show globMatch [] s = s.isEmpty from rfl, globSpec_nil_iff]
    cases s <;> simp
  | cons c ps ih =>
    intro s
    by_cases hc : c = '*'
    · subst hc
      rw [show globMatch ('*' :: ps) s = (tails s).any (fun t => globMatch ps t) from by
        simp [globMatch]]
      rw [globSpec_star_iff]
      simp only [List.any_eq_true]
      constructor
      · rintro ⟨t, ht, h⟩
        exact ⟨t, ht, (ih t).1 h⟩
      · rintro ⟨t, ht, h⟩
        exact ⟨t, ht, (ih t).2 h⟩
    · cases s with
      | nil =>
        rw [show globMatch (c :: ps) [] = false from by simp [globMatch, hc]]
        constructor
        · intro h
          exact absurd h (by simp)
        · intro hcon
          cases hcon with
          | starSkip h' => exact absurd rfl hc
      | cons c' s' =>
        rw [show globMatch (c :: ps) (c' :: s') = (c == c' && globMatch ps s') from by
          simp [globMatch, hc]]
        constructor
        · intro h
          rw [Bool.and_eq_true, beq_iff_eq] at h
          obtain ⟨rfl, h2⟩ := h
          exact GlobSpec.char hc ((ih s').1 h2)
        · intro h
          cases h with
          | char hne h' =>
            rw [Bool.and_eq_true, beq_iff_eq]
            exact ⟨rfl, (ih s').2 h'⟩
          | starSkip h' => exact absurd rfl hc
          | starEat h' => exact absurd rfl hc

/-- C8: on a state whose index is sorted (the engine invariant),
`GetIndex("*")` returns the full index, already sorted; any other pattern
containing `*` performs the anchored, case-sensitive glob scan of the
index and returns exactly the matching keys as a subsequence of the index
(hence in ascending index order). -/
theorem getIndex_wildcard_spec (s : Storage) (hs : s.index.Sorted (· < ·)) :
    (s.GetIndex "*" = some s.index ∧ s.index.Sorted (· < ·)) ∧
    ∀ pattern : String, pattern ≠ "*" → '*' ∈ pattern.data →
      ∃ r, s.GetIndex pattern = some r ∧
        r.Sublist s.index ∧ r.Sorted (· < ·) ∧
        ∀ a, a ∈ r ↔ a ∈ s.index ∧ GlobSpec pattern.data a.data := by
  constructor
  · exact ⟨by simp [Storage.GetIndex], hs⟩
  · intro pattern hne hstar
    have hcontains : pattern.data.contains '*' = true :=
      List.elem_eq_true_of_mem hstar
    refine ⟨s.index.filter (fun v => globMatch pattern.data v.data), ?_, ?_, ?_, ?_⟩
    · unfold Storage.GetIndex
      rw [if_neg hne, if_neg (by simpa using hstar)]
    · exact List.filter_sublist s.index
    · exact hs.sublist (List.filter_sublist s.index)
    · intro a
      rw [List.mem_filter]
      rw [globMatch_iff_globSpec pattern.data a.data]

/-- Witness for C8 on a one-key sorted index. -/
theorem getIndex_wildcard_spec_witness :
    sampleListStore.index.Sorted (· < ·) ∧
      sampleListStore.GetIndex "*" = some ["l"] ∧
      ("l*" : String) ≠ "*" ∧ '*' ∈ ("l*" : String).data ∧
      ∃ r, sampleListStore.GetIndex "l*" = some r ∧
        ∀ a, a ∈ r ↔ a ∈ sampleListStore.index ∧ GlobSpec ("l*" : String).data a.data := by
  have hs : sampleListStore.index.Sorted (· < ·) := by simp [sampleListStore]
  have h := getIndex_wildcard_spec sampleListStore hs
  obtain ⟨⟨h1, -⟩, h2⟩ := h
  obtain ⟨r, hr1, -, -, hr4⟩ := h2 "l*" (by decide) (by decide)
  exact ⟨hs, h1, by decide, by decide, r, hr1, hr4⟩

end MiniKeystore
